import Mathlib

/-!
Verification of GeneralStack (src/generalStack.c, src/generalStack.h).

The C program implements a type-erased stack as a singly linked chain of
tables ("segments"), newest table first.  Each table is `initialSize`
elements larger than the previous one.  We embed the code shallowly:

* a table buffer (`void *Items`, `malloc`ed, uninitialized) becomes a
  `List (Option α)` whose length is the table's capacity, with `none`
  standing for an uninitialized slot — `memcpy` of `itemSize` bytes at
  byte offset `i * itemSize` becomes `List.set i (some x)`, and a read at
  that offset becomes `List.getD i none` (all accesses in the C code are
  slot-aligned with the fixed element size, so the slot view is exact);
* the `struct node` chain starting at `stack->head` becomes the
  `List (Buf α)` field `head` (empty list = NULL pointer; the C code never
  has a NULL head after `initStack`);
* `unsigned int` arithmetic is `Nat` arithmetic modulo `2 ^ 32`
  (`M32`); the `int` locals of `itemExists` are `Int` (the values that
  occur on well-formed stacks fit in a machine `int`);
* `exit(0)` (allocation failure aside, which we do not model: the
  allocator of the model always succeeds) becomes the `none` result of an
  `Option`-valued operation; dereferencing NULL also becomes `none` and is
  marked as unreachable where it is.
-/

namespace GeneralStack

/-- `2 ^ 32`, the modulus of the C `unsigned int` arithmetic. -/
def M32 : Nat := 2 ^ 32

/-- Wrapping unsigned subtraction `a - b` on `unsigned int` values
(`a, b < M32`). -/
def usub (a b : Nat) : Nat := (a + M32 - b) % M32

/-- One table's item buffer: capacity-many slots, `none` = uninitialized
memory. -/
abbrev Buf (α : Type) := List (Option α)

/-- `struct _stack`.  The field `head` is the chain of tables reached from
`stack->head` via `next` (newest first); `[]` plays the role of the NULL
pointer. -/
structure Stack (α : Type) where
  head : List (Buf α)
  i : Nat
  n : Nat
  itemSize : Nat
  initialSize : Nat
deriving DecidableEq, Repr

/-- `initStack`: one table of `initial_size` (uninitialized) slots,
`i = 0`, `n = initialSize = initial_size`.  (The `malloc`-failure exits
are not modelled; the model's allocator always succeeds.) -/
def initStack {α : Type} (initial_size item_size : Nat) : Stack α :=
  ⟨[List.replicate initial_size none], 0, initial_size, item_size, initial_size⟩

/-- `isStackEmpty`: `stack->i == 0 && stack->head->next == NULL`.
A head with a NULL `next` is exactly a chain of length one.  (On a NULL
head the C code would fault; the model returns `false` there, a state no
reachable stack has.) -/
def isStackEmpty {α : Type} (s : Stack α) : Bool :=
  s.i == 0 && s.head.length == 1

/-- `push`.  If the head table is full (`i == n`) it allocates a table of
`n + initialSize` slots (computed in wrapping unsigned arithmetic) after
the overflow guard `if (i >= n_new) exit(0)`, links it as the new head and
resets `i` to `0`; then it writes the item at slot `i` and increments `i`.
`none` = `exit(0)` on the guard (and the unreachable NULL-head fault). -/
def push {α : Type} (s : Stack α) (item : α) : Option (Stack α) :=
  if s.i = s.n then
    let n2 := (s.n + s.initialSize) % M32
    if n2 ≤ s.i then none
    else
      some { s with head := (List.replicate n2 none).set 0 (some item) :: s.head,
                    n := n2, i := 1 }
  else
    match s.head with
    | [] => none
    | b :: rest => some { s with head := b.set s.i (some item) :: rest, i := s.i + 1 }

/-- `pop`.  Fatal (`none`) on an empty stack.  If the head table is
drained (`i == 0`) it frees the head, making the next table the head, with
`n -= initialSize` and `i = n`; then it decrements `i` and reads the slot
at the new `i`.  The two NULL-dereference branches (`none`) are
unreachable on well-formed stacks. -/
def pop {α : Type} (s : Stack α) : Option (Option α × Stack α) :=
  if isStackEmpty s then none
  else if s.i = 0 then
    match s.head with
    | [] => none
    | [_] => none
    | _ :: b :: rest =>
      let n2 := usub s.n s.initialSize
      let i2 := usub n2 1
      some (b.getD i2 none, { s with head := b :: rest, n := n2, i := i2 })
  else
    match s.head with
    | [] => none
    | b :: _ => some (b.getD (s.i - 1) none, { s with i := s.i - 1 })

/-- The inner `for (; i >= 0; i--)` loop of `itemExists`, recursing on the
fuel `i + 1` (so fuel `k + 1` scans slot `k`, fuel `0` is `i < 0`).
Checks `max_depth == 0` before each comparison, decrements a positive
`max_depth`, and compares the probe with the slot's contents.  A `none`
slot is an uninitialized read (never scanned on a well-formed stack);
the garbage there is modelled as comparing unequal.
`Sum.inl b` = the function returned `b`; `Sum.inr md` = the loop ran out
with remaining budget `md`. -/
def scanTableN {α : Type} (equal : α → α → Bool) (item : α) (buf : Buf α) :
    Nat → Int → Sum Bool Int
  | 0, md => Sum.inr md
  | k + 1, md =>
    if md = 0 then Sum.inl false
    else
      let md2 := if 0 < md then md - 1 else md
      if (match buf.getD k none with
          | some y => equal item y
          | none => false) then Sum.inl true
      else scanTableN equal item buf k md2

/-- The inner loop of `itemExists` started at (signed) index `i`. -/
def scanTable {α : Type} (equal : α → α → Bool) (item : α) (buf : Buf α)
    (i md : Int) : Sum Bool Int :=
  scanTableN equal item buf (i + 1).toNat md

/-- The outer `while (node_ptr != NULL)` loop of `itemExists`: scan the
current table from index `i`, then move to the next table with
`n -= initialSize; i = n - 1`. -/
def scanChain {α : Type} (equal : α → α → Bool) (item : α) (inc : Nat) :
    List (Buf α) → Int → Int → Int → Bool
  | [], _, _, _ => false
  | buf :: rest, n, i, md =>
    match scanTable equal item buf i md with
    | Sum.inl b => b
    | Sum.inr md2 => scanChain equal item inc rest (n - inc) (n - inc - 1) md2

/-- `itemExists`: starts the scan at the head table with `n = stack->n`,
`i = stack->i - 1` (signed arithmetic: `-1` when the head is drained) and
the given `max_depth` budget. -/
def itemExists {α : Type} (s : Stack α) (item : α) (max_depth : Int)
    (equal : α → α → Bool) : Bool :=
  scanChain equal item s.initialSize s.head (s.n : Int) ((s.i : Int) - 1) max_depth

/-- State-passing form of `itemExists`: the C function performs no store
through `stack` and calls no `free`, so its translation threads the stack
state through unchanged. -/
def itemExistsSt {α : Type} (s : Stack α) (item : α) (max_depth : Int)
    (equal : α → α → Bool) : Bool × Stack α :=
  (itemExists s item max_depth equal, s)

/-- The logical contents of the stack, top (most recently pushed slot)
first: slots `i - 1, …, 0` of the head table, then each older table from
its last slot down. -/
def contents {α : Type} (s : Stack α) : List (Option α) :=
  ((s.head.headD []).take s.i).reverse ++ (s.head.tail.map List.reverse).flatten

/-- The stored elements, top first (on a well-formed stack every slot of
`contents` is initialized, so this loses nothing). -/
def elems {α : Type} (s : Stack α) : List α := (contents s).reduceOption

/-- The capacities along a chain, starting from a head capacity `c`:
each table is `inc` smaller than the previous one, and the chain runs out
exactly when the capacity does. -/
def capsFrom {α : Type} (inc : Nat) : List (Buf α) → Nat → Prop
  | [], c => c = 0
  | b :: rest, c => b.length = c ∧ capsFrom inc rest (c - inc)

instance capsFromDec {α : Type} (inc : Nat) :
    (cs : List (Buf α)) → (c : Nat) → Decidable (capsFrom inc cs c)
  | [], c => by unfold capsFrom; infer_instance
  | b :: rest, c => by
    unfold capsFrom
    have := capsFromDec inc rest (c - inc)
    infer_instance

/-- Well-formedness: every state reachable from `initStack` by successful
`push`/`pop` calls satisfies this.
1. the chain is never NULL;
2. `n` is the head table's capacity, `initialSize * length`;
3. capacities shrink by `initialSize` from the head down, ending at `0`;
4. `i ≤ n`;
5. head slots below `i` are initialized;
6. every non-head table is fully initialized;
7. `n` fits in an `unsigned int`;
8. a chain of ≥ 2 tables only arises with a positive growth increment. -/
def WF {α : Type} (s : Stack α) : Prop :=
  s.head ≠ [] ∧
  s.n = s.initialSize * s.head.length ∧
  capsFrom s.initialSize s.head s.n ∧
  s.i ≤ s.n ∧
  (∀ o ∈ (s.head.headD []).take s.i, o.isSome = true) ∧
  (∀ t ∈ s.head.tail, ∀ o ∈ t, o.isSome = true) ∧
  s.n < M32 ∧
  (2 ≤ s.head.length → 1 ≤ s.initialSize)

instance {α : Type} [DecidableEq α] (s : Stack α) : Decidable (WF s) := by
  unfold WF
  infer_instance

/-- The stacks reachable from `initStack inc isz` by successful (non-fatal)
`push` and `pop` calls. -/
inductive Reach {α : Type} (inc isz : Nat) : Stack α → Prop
  | init : Reach inc isz (initStack inc isz)
  | next_push {s s' : Stack α} {x : α} : Reach inc isz s → push s x = some s' →
      Reach inc isz s'
  | next_pop {s s' : Stack α} {v : Option α} : Reach inc isz s → pop s = some (v, s') →
      Reach inc isz s'

/-- Push a whole list of items in order (`none` as soon as one push is
fatal). -/
def pushAll {α : Type} : Stack α → List α → Option (Stack α)
  | s, [] => some s
  | s, x :: xs =>
    match push s x with
    | some s2 => pushAll s2 xs
    | none => none

/-- Pop `k` times, collecting the popped values in order (`none` as soon
as one pop is fatal). -/
def popAll {α : Type} : Stack α → Nat → Option (List (Option α) × Stack α)
  | s, 0 => some ([], s)
  | s, k + 1 =>
    match pop s with
    | some (v, s2) =>
      match popAll s2 k with
      | some (vs, s3) => some (v :: vs, s3)
      | none => none
    | none => none

/-- Reference form of the depth-budgeted scan, over the flat list of
stored elements (used to state what `itemExists` computes). -/
def scanList {α : Type} (equal : α → α → Bool) (item : α) :
    List α → Int → Sum Bool Int
  | [], md => Sum.inr md
  | y :: ys, md =>
    if md = 0 then Sum.inl false
    else
      let md2 := if 0 < md then md - 1 else md
      if equal item y then Sum.inl true
      else scanList equal item ys md2

/-- `scanList`, collapsed to the final boolean (`Sum.inr` = exhausted the
list without a hit = not found). -/
def scanListB {α : Type} (equal : α → α → Bool) (item : α) (l : List α)
    (md : Int) : Bool :=
  match scanList equal item l md with
  | Sum.inl b => b
  | Sum.inr _ => false

/-! ### Arithmetic and list helpers -/

theorem M32_eq : M32 = 4294967296 := by norm_num [M32]

theorem replicate_set_zero {β : Type} (n : Nat) (d v : β) (h : 1 ≤ n) :
    (List.replicate n d).set 0 v = v :: List.replicate (n - 1) d := by
  cases n with
  | zero => omega
  | succ m => simp [List.replicate_succ]

theorem take_succ_getD {β : Type} {l : List β} {k : Nat} (d : β) (h : k < l.length) :
    l.take (k + 1) = l.take k ++ [l.getD k d] := by
  rw [List.take_succ, List.getElem?_eq_getElem h, List.getD_eq_getElem l d h]
  rfl

theorem take_set_succ {β : Type} {l : List β} {k : Nat} (v : β) (h : k < l.length) :
    (l.set k v).take (k + 1) = l.take k ++ [v] := by
  induction l generalizing k with
  | nil => simp at h
  | cons a l ih =>
    cases k with
    | zero => simp
    | succ k =>
      simp only [List.set_cons_succ, List.take_succ_cons, List.cons_append]
      rw [ih (by simpa using h)]

theorem mem_take_mono {β : Type} {l : List β} {j k : Nat} {o : β} (h : j ≤ k)
    (hm : o ∈ l.take j) : o ∈ l.take k := by
  have : l.take j = (l.take k).take j := by rw [List.take_take, Nat.min_eq_left h]
  exact List.take_subset _ _ (this ▸ hm)

theorem reverse_eq_getD_cons {β : Type} {l : List β} (d : β) (h : l ≠ []) :
    l.reverse = l.getD (l.length - 1) d :: (l.take (l.length - 1)).reverse := by
  conv_lhs => rw [← List.dropLast_append_getLast h]
  rw [List.reverse_append, List.dropLast_eq_take]
  simp only [List.reverse_cons, List.reverse_nil, List.nil_append, List.singleton_append]
  congr 1
  rw [List.getLast_eq_getElem, List.getD_eq_getElem l d (by
    have := List.length_pos.mpr h
    omega)]

/-! ### Well-formedness of the initial stack -/

theorem wf_initStack {α : Type} (inc isz : Nat) (h : inc < M32) :
    WF (initStack (α := α) inc isz) := by
  refine ⟨by simp [initStack], by simp [initStack], ?_, by simp [initStack],
    by simp [initStack], by simp [initStack], h, by simp [initStack]⟩
  simp [initStack, capsFrom]

theorem contents_initStack {α : Type} (inc isz : Nat) :
    contents (initStack (α := α) inc isz) = [] := by
  simp [contents, initStack]

/-! ### Characterizations of `push` -/

theorem push_eq_grow {α : Type} {s : Stack α} (x : α) (hi : s.i = s.n)
    (hov : s.i < (s.n + s.initialSize) % M32) :
    push s x = some ⟨(List.replicate ((s.n + s.initialSize) % M32) none).set 0 (some x) :: s.head,
      1, (s.n + s.initialSize) % M32, s.itemSize, s.initialSize⟩ := by
  have hov2 : ¬ ((s.n + s.initialSize) % M32 ≤ s.n) := by omega
  simp [push, hi, hov2]

theorem push_eq_wrap {α : Type} {s : Stack α} (x : α) (hi : s.i = s.n)
    (hov : (s.n + s.initialSize) % M32 ≤ s.i) : push s x = none := by
  have hov2 : (s.n + s.initialSize) % M32 ≤ s.n := by omega
  simp [push, hi, hov2]

theorem push_eq_quick {α : Type} {s : Stack α} (x : α) (hi : s.i ≠ s.n)
    {b : Buf α} {rest : List (Buf α)} (hb : s.head = b :: rest) :
    push s x = some ⟨b.set s.i (some x) :: rest, s.i + 1, s.n, s.itemSize, s.initialSize⟩ := by
  simp [push, hi, hb]

/-- A successful `push` preserves well-formedness and conses the pushed
item onto the logical contents. -/
theorem wf_push {α : Type} {s s' : Stack α} {x : α} (hwf : WF s)
    (hp : push s x = some s') :
    WF s' ∧ contents s' = some x :: contents s ∧
      s'.initialSize = s.initialSize ∧ s'.itemSize = s.itemSize := by
  obtain ⟨hnn, hn, hcaps, hi, hfill, hfull, hlt, hgrow⟩ := hwf
  obtain ⟨b, rest, hb⟩ := List.exists_cons_of_ne_nil hnn
  have hblen : b.length = s.n := by rw [hb] at hcaps; exact hcaps.1
  by_cases hin : s.i = s.n
  · by_cases hov : s.i < (s.n + s.initialSize) % M32
    · rw [push_eq_grow x hin hov] at hp
      have hinc : s.initialSize ≤ s.n := by
        rw [hn]
        have : 1 ≤ s.head.length := by rw [hb]; simp
        calc s.initialSize = s.initialSize * 1 := by ring
        _ ≤ s.initialSize * s.head.length := Nat.mul_le_mul_left _ this
      have hexact : (s.n + s.initialSize) % M32 = s.n + s.initialSize := by
        rw [M32_eq] at *
        omega
      have hpos : 1 ≤ s.n + s.initialSize := by omega
      have hltn : s.n + s.initialSize < M32 := by
        have h0 : 0 < M32 := by rw [M32_eq]; omega
        have hm := Nat.mod_lt (s.n + s.initialSize) h0
        rwa [hexact] at hm
      rw [hexact] at hp
      obtain rfl : _ = s' := Option.some.inj hp
      refine ⟨⟨by simp, ?_, ?_, by simp; omega, ?_, ?_, by simpa using hltn, ?_⟩,
        ?_, rfl, rfl⟩
      · show s.n + s.initialSize = s.initialSize * (s.head.length + 1)
        rw [hn]; ring
      · show capsFrom s.initialSize _ (s.n + s.initialSize)
        refine ⟨by simp, ?_⟩
        simpa using hcaps
      · intro o ho
        rw [replicate_set_zero _ _ _ hpos] at ho
        simp at ho
        simp [ho]
      · intro t ht o ho
        simp only [List.tail_cons] at ht
        rw [hb] at ht
        rcases List.mem_cons.mp ht with rfl | ht
        · exact hfill o (by rw [hb] at hfill ⊢; simpa [hin, ← hblen] using ho)
        · exact hfull t (by rw [hb]; simpa using ht) o ho
      · intro _
        show 1 ≤ s.initialSize
        omega
      · show contents _ = some x :: contents s
        simp only [contents, hb]
        rw [replicate_set_zero _ _ _ hpos]
        simp only [List.headD_cons, List.tail_cons, List.map_cons, List.flatten_cons]
        rw [hin, ← hblen, List.take_length]
        simp
    · rw [push_eq_wrap x hin (Nat.le_of_not_lt hov)] at hp
      exact absurd hp (by simp)
  · rw [push_eq_quick x hin hb] at hp
    obtain rfl : _ = s' := Option.some.inj hp
    have hilt : s.i < s.n := Nat.lt_of_le_of_ne hi hin
    have hib : s.i < b.length := by omega
    refine ⟨⟨by simp, ?_, ?_, by simp; omega, ?_, ?_, by simpa using hlt, ?_⟩, ?_, rfl, rfl⟩
    · show s.n = s.initialSize * (rest.length + 1)
      rw [hn, hb]; simp
    · show capsFrom s.initialSize _ s.n
      refine ⟨by simpa using hblen, ?_⟩
      rw [hb] at hcaps
      exact hcaps.2
    · intro o ho
      simp only [List.headD_cons] at ho
      rw [take_set_succ (some x) hib] at ho
      rcases List.mem_append.mp ho with ho | ho
      · exact hfill o (by rw [hb]; simpa using ho)
      · simp at ho; simp [ho]
    · intro t ht o ho
      exact hfull t (by rw [hb]; simpa using ht) o ho
    · intro h2
      exact hgrow (by rw [hb]; simpa using h2)
    · show contents _ = some x :: contents s
      simp only [contents, hb, List.headD_cons, List.tail_cons]
      rw [take_set_succ (some x) hib]
      simp

/-! ### Characterizations of `pop` -/

theorem usub_eq {a b : Nat} (hba : b ≤ a) (ha : a < M32) : usub a b = a - b := by
  unfold usub
  rw [M32_eq] at *
  omega

theorem pop_eq_empty {α : Type} {s : Stack α} (h : isStackEmpty s = true) :
    pop s = none := by
  simp [pop, h]

theorem pop_eq_quick {α : Type} {s : Stack α} (hne : isStackEmpty s = false)
    (hi : s.i ≠ 0) {b : Buf α} {rest : List (Buf α)} (hb : s.head = b :: rest) :
    pop s = some (b.getD (s.i - 1) none,
      ⟨b :: rest, s.i - 1, s.n, s.itemSize, s.initialSize⟩) := by
  simp [pop, hne, hi, hb]

theorem pop_eq_drain {α : Type} {s : Stack α} (hne : isStackEmpty s = false)
    (hi : s.i = 0) {b0 b : Buf α} {rest : List (Buf α)}
    (hb : s.head = b0 :: b :: rest) :
    pop s = some (b.getD (usub (usub s.n s.initialSize) 1) none,
      ⟨b :: rest, usub (usub s.n s.initialSize) 1, usub s.n s.initialSize,
        s.itemSize, s.initialSize⟩) := by
  simp [pop, hne, hi, hb]

/-- On a well-formed non-empty stack, `pop` never hits a fatal branch. -/
theorem pop_some_of_wf {α : Type} {s : Stack α} (hwf : WF s)
    (hne : isStackEmpty s = false) : ∃ v s', pop s = some (v, s') := by
  obtain ⟨hnn, hn, hcaps, hi, hfill, hfull, hlt, hgrow⟩ := hwf
  obtain ⟨b, rest, hb⟩ := List.exists_cons_of_ne_nil hnn
  by_cases hi0 : s.i = 0
  · have hrest : rest ≠ [] := by
      intro hr
      rw [isStackEmpty, hb, hr] at hne
      simp [hi0] at hne
    obtain ⟨b2, rest2, hr2⟩ := List.exists_cons_of_ne_nil hrest
    rw [hr2] at hb
    exact ⟨_, _, pop_eq_drain hne hi0 hb⟩
  · exact ⟨_, _, pop_eq_quick hne hi0 hb⟩

/-- A successful `pop` preserves well-formedness and uncoses the logical
contents, returning the old top. -/
theorem wf_pop {α : Type} {s s' : Stack α} {v : Option α} (hwf : WF s)
    (hp : pop s = some (v, s')) :
    WF s' ∧ contents s = v :: contents s' ∧
      s'.initialSize = s.initialSize ∧ s'.itemSize = s.itemSize := by
  obtain ⟨hnn, hn, hcaps, hi, hfill, hfull, hlt, hgrow⟩ := hwf
  obtain ⟨b, rest, hb⟩ := List.exists_cons_of_ne_nil hnn
  have hne : isStackEmpty s = false := by
    cases hE : isStackEmpty s
    · rfl
    · rw [pop_eq_empty hE] at hp
      exact absurd hp (by simp)
  by_cases hi0 : s.i = 0
  · have hrest : rest ≠ [] := by
      intro hr
      rw [isStackEmpty, hb, hr] at hne
      simp [hi0] at hne
    obtain ⟨b2, rest2, hr2⟩ := List.exists_cons_of_ne_nil hrest
    rw [hr2] at hb
    have hginc : 1 ≤ s.initialSize := by
      apply hgrow
      rw [hb]
      simp
    have hL : s.n = s.initialSize * (rest2.length + 2) := by
      rw [hn, hb]
      simp
    have h2inc : s.initialSize * 2 ≤ s.n := by
      rw [hL]
      exact Nat.mul_le_mul_left _ (by omega)
    rw [hb] at hcaps
    simp only [capsFrom] at hcaps
    obtain ⟨hc1, hc2, hc3⟩ := hcaps
    have hu1 : usub s.n s.initialSize = s.n - s.initialSize := usub_eq (by omega) hlt
    have hu2 : usub (s.n - s.initialSize) 1 = s.n - s.initialSize - 1 :=
      usub_eq (by omega) (by omega)
    rw [pop_eq_drain hne hi0 hb, hu1, hu2] at hp
    simp only [Option.some.injEq, Prod.mk.injEq] at hp
    obtain ⟨hv, hs⟩ := hp
    subst hv
    subst hs
    have hb2 : b2 ≠ [] := by
      intro h0
      rw [h0] at hc2
      simp at hc2
      omega
    refine ⟨⟨by simp, ?_, ?_, ?_, ?_, ?_, ?_, fun _ => hginc⟩, ?_, rfl, rfl⟩
    · show s.n - s.initialSize = s.initialSize * (rest2.length + 1)
      have : s.initialSize * (rest2.length + 2) = s.initialSize * (rest2.length + 1) + s.initialSize := by
        ring
      omega
    · show capsFrom s.initialSize (b2 :: rest2) (s.n - s.initialSize)
      exact ⟨hc2, hc3⟩
    · show s.n - s.initialSize - 1 ≤ s.n - s.initialSize
      omega
    · intro o ho
      simp only [List.headD_cons] at ho
      exact hfull b2 (by rw [hb]; simp) o (List.take_subset _ _ ho)
    · intro t ht o ho
      refine hfull t ?_ o ho
      rw [hb]
      simp only [List.tail_cons] at ht ⊢
      exact List.mem_cons_of_mem _ ht
    · show s.n - s.initialSize < M32
      omega
    · show contents s = _ :: contents _
      simp only [contents, hb, hi0, List.headD_cons, List.tail_cons, List.take_zero,
        List.reverse_nil, List.nil_append, List.map_cons, List.flatten_cons]
      rw [reverse_eq_getD_cons (none : Option α) hb2, hc2]
      simp
  · rw [pop_eq_quick hne hi0 hb] at hp
    simp only [Option.some.injEq, Prod.mk.injEq] at hp
    obtain ⟨hv, hs⟩ := hp
    subst hv
    subst hs
    have hblen : b.length = s.n := by rw [hb] at hcaps; exact hcaps.1
    refine ⟨⟨by simp, ?_, ?_, ?_, ?_, ?_, by simpa using hlt, ?_⟩, ?_, rfl, rfl⟩
    · show s.n = s.initialSize * (b :: rest).length
      rw [← hb]
      exact hn
    · show capsFrom s.initialSize (b :: rest) s.n
      rw [← hb]
      exact hcaps
    · show s.i - 1 ≤ s.n
      omega
    · intro o ho
      simp only [List.headD_cons] at ho
      refine hfill o ?_
      rw [hb]
      simp only [List.headD_cons]
      exact mem_take_mono (by omega) ho
    · intro t ht o ho
      refine hfull t ?_ o ho
      rw [hb]
      simpa using ht
    · intro h2
      apply hgrow
      rw [hb]
      simpa using h2
    · show contents s = _ :: contents _
      have hib : s.i - 1 < b.length := by omega
      have hsi : s.i - 1 + 1 = s.i := by omega
      simp only [contents, hb, List.headD_cons, List.tail_cons]
      rw [← hsi, take_succ_getD (none : Option α) hib]
      simp

/-- On a well-formed stack, `isStackEmpty` says exactly that no stored
element remains. -/
theorem isStackEmpty_iff_contents {α : Type} {s : Stack α} (hwf : WF s) :
    isStackEmpty s = true ↔ contents s = [] := by
  obtain ⟨hnn, hn, hcaps, hi, hfill, hfull, hlt, hgrow⟩ := hwf
  obtain ⟨b, rest, hb⟩ := List.exists_cons_of_ne_nil hnn
  constructor
  · intro hE
    rw [isStackEmpty] at hE
    simp only [Bool.and_eq_true, beq_iff_eq] at hE
    have hrest : rest = [] := by
      have := hE.2
      rw [hb] at this
      simp at this
      exact this
    simp [contents, hb, hrest, hE.1]
  · intro hC
    simp only [contents, hb, List.headD_cons, List.tail_cons, List.append_eq_nil,
      List.reverse_eq_nil_iff] at hC
    obtain ⟨hC1, hC2⟩ := hC
    have hrest : rest = [] := by
      cases hr : rest with
      | nil => rfl
      | cons r0 rs =>
        exfalso
        rw [hr] at hC2
        simp only [List.map_cons, List.flatten_cons, List.append_eq_nil,
          List.reverse_eq_nil_iff] at hC2
        have hr0 : r0.length = s.n - s.initialSize := by
          rw [hb, hr] at hcaps
          simp only [capsFrom] at hcaps
          exact hcaps.2.1
        have hginc : 1 ≤ s.initialSize := by
          apply hgrow
          rw [hb, hr]
          simp
        have hL : s.n = s.initialSize * (rs.length + 2) := by
          rw [hn, hb, hr]
          simp
        have h2inc : s.initialSize * 2 ≤ s.n := by
          rw [hL]
          exact Nat.mul_le_mul_left _ (by omega)
        rw [hC2.1] at hr0
        simp at hr0
        omega
    have hbn : b.length = s.n := by rw [hb] at hcaps; exact hcaps.1
    have hi0 : s.i = 0 := by
      rcases List.take_eq_nil_iff.mp hC1 with h | h
      · exact h
      · rw [h] at hbn
        simp at hbn
        omega
    rw [isStackEmpty, hb, hrest, hi0]
    simp

/-! ### Sequences of operations -/

theorem wf_pushAll {α : Type} {xs : List α} :
    ∀ {s s' : Stack α}, WF s → pushAll s xs = some s' →
    WF s' ∧ contents s' = (xs.map some).reverse ++ contents s ∧
      s'.initialSize = s.initialSize ∧ s'.itemSize = s.itemSize := by
  induction xs with
  | nil =>
    intro s s' hwf hp
    simp only [pushAll, Option.some.injEq] at hp
    subst hp
    simp [hwf]
  | cons x xs ih =>
    intro s s' hwf hp
    simp only [pushAll] at hp
    cases hpx : push s x with
    | none => rw [hpx] at hp; simp at hp
    | some s2 =>
      rw [hpx] at hp
      obtain ⟨hw2, hc2, hinc2, hisz2⟩ := wf_push hwf hpx
      obtain ⟨hw3, hc3, hinc3, hisz3⟩ := ih hw2 hp
      refine ⟨hw3, ?_, by rw [hinc3, hinc2], by rw [hisz3, hisz2]⟩
      rw [hc3, hc2]
      simp

theorem popAll_contents {α : Type} :
    ∀ (k : Nat) (s : Stack α), WF s → k = (contents s).length →
    ∃ s', popAll s k = some (contents s, s') ∧ WF s' ∧ contents s' = [] := by
  intro k
  induction k with
  | zero =>
    intro s hwf hk
    have hc : contents s = [] := List.length_eq_zero.mp hk.symm
    exact ⟨s, by simp [popAll, hc], hwf, hc⟩
  | succ k ih =>
    intro s hwf hk
    have hne : isStackEmpty s = false := by
      cases hE : isStackEmpty s
      · rfl
      · rw [(isStackEmpty_iff_contents hwf).mp hE] at hk
        simp at hk
    obtain ⟨v, s2, hpop⟩ := pop_some_of_wf hwf hne
    obtain ⟨hw2, hc2, _, _⟩ := wf_pop hwf hpop
    obtain ⟨s', h1, h2, h3⟩ := ih s2 hw2 (by rw [hc2] at hk; simpa using hk)
    refine ⟨s', ?_, h2, h3⟩
    simp only [popAll, hpop, h1, hc2]

/-- Every reachable state is well-formed, with the construction-time
parameters intact. -/
theorem wf_of_reach {α : Type} {inc isz : Nat} {s : Stack α} (hinc : inc < M32)
    (hr : Reach inc isz s) : WF s ∧ s.initialSize = inc ∧ s.itemSize = isz := by
  induction hr with
  | init => exact ⟨wf_initStack inc isz hinc, rfl, rfl⟩
  | next_push _ hp ih =>
    obtain ⟨hw, hi1, hi2⟩ := ih
    obtain ⟨hw', _, hinc', hisz'⟩ := wf_push hw hp
    exact ⟨hw', by rw [hinc', hi1], by rw [hisz', hi2]⟩
  | next_pop _ hp ih =>
    obtain ⟨hw, hi1, hi2⟩ := ih
    obtain ⟨hw', _, hinc', hisz'⟩ := wf_pop hw hp
    exact ⟨hw', by rw [hinc', hi1], by rw [hisz', hi2]⟩

/-- On a well-formed stack no stored slot is an uninitialized read. -/
theorem contents_all_isSome {α : Type} {s : Stack α} (hwf : WF s) :
    ∀ o ∈ contents s, o.isSome = true := by
  obtain ⟨hnn, hn, hcaps, hi, hfill, hfull, hlt, hgrow⟩ := hwf
  intro o ho
  rcases List.mem_append.mp ho with h | h
  · exact hfill o (List.mem_reverse.mp h)
  · rw [List.mem_flatten] at h
    obtain ⟨l, hl, hol⟩ := h
    rw [List.mem_map] at hl
    obtain ⟨t, ht, rfl⟩ := hl
    exact hfull t ht o (List.mem_reverse.mp hol)

theorem elems_nil_iff {α : Type} {s : Stack α} (hwf : WF s) :
    elems s = [] ↔ contents s = [] := by
  constructor
  · intro h
    cases hc : contents s with
    | nil => rfl
    | cons o tl =>
      exfalso
      have ho : o.isSome = true := contents_all_isSome hwf o (by rw [hc]; simp)
      obtain ⟨y, hy⟩ := Option.isSome_iff_exists.mp ho
      rw [elems, hc, hy] at h
      simp at h
  · intro h
    rw [elems, h]
    rfl

theorem capsFrom_getD {α : Type} {inc : Nat} :
    ∀ (cs : List (Buf α)) (c : Nat), capsFrom inc cs c →
      ∀ j, j < cs.length → (cs.getD j []).length = c - j * inc := by
  intro cs
  induction cs with
  | nil => intro c _ j hj; simp at hj
  | cons b rest ih =>
    intro c hc j hj
    cases j with
    | zero => simpa using hc.1
    | succ j =>
      rw [List.getD_cons_succ, ih (c - inc) hc.2 j (by simpa using hj), Nat.sub_sub]
      congr 1
      ring

/-! ### The claims -/

/-- C1: for every element size, every initial capacity ≥ 1 and every item
sequence `xs` whose pushes all succeed, popping `xs.length` times returns
exactly the reverse of `xs` (and drains the stack), however many tables
the items span. -/
theorem c1_lifo {α : Type} (inc isz : Nat) (xs : List α) (s : Stack α)
    (hpos : 1 ≤ inc) (hincM : inc < M32)
    (hpush : pushAll (initStack inc isz) xs = some s) :
    (popAll s xs.length).map Prod.fst = some (xs.reverse.map some) ∧
    (popAll s xs.length).map (fun p => isStackEmpty p.2) = some true := by
  have hwf0 := wf_initStack (α := α) inc isz hincM
  obtain ⟨hwf, hc, _, _⟩ := wf_pushAll hwf0 hpush
  rw [contents_initStack, List.append_nil] at hc
  have hc2 : contents s = xs.reverse.map some := by rw [hc]; simp
  have hlen : xs.length = (contents s).length := by rw [hc2]; simp
  obtain ⟨s', h1, h2, h3⟩ := popAll_contents xs.length s hwf hlen
  rw [h1]
  exact ⟨by simp [hc2], by simp [(isStackEmpty_iff_contents h2).mpr h3]⟩

theorem c1_lifo_witness :
    (popAll (⟨[[some 20, some 30], [some 10]], 2, 2, 4, 1⟩ : Stack Nat) 3).map Prod.fst =
      some [some 30, some 20, some 10] ∧
    (popAll (⟨[[some 20, some 30], [some 10]], 2, 2, 4, 1⟩ : Stack Nat) 3).map
      (fun p => isStackEmpty p.2) = some true := by
  have h := c1_lifo 1 4 [10, 20, 30] (⟨[[some 20, some 30], [some 10]], 2, 2, 4, 1⟩ : Stack Nat)
    (by decide) (by norm_num [M32]) (by rfl)
  simpa using h

/-- C5: on every reachable stack the chain is non-empty, the growth
increment is the construction-time initial capacity, and segment `k`
(0-indexed from the bottom, i.e. position `length - 1 - k` from the head)
has capacity exactly `inc * (k + 1)`. -/
theorem c5_segment_capacities {α : Type} (inc isz : Nat) (s : Stack α) (k : Nat)
    (hincM : inc < M32) (hr : Reach inc isz s) (hk : k < s.head.length) :
    s.head ≠ [] ∧ s.initialSize = inc ∧
      (s.head.getD (s.head.length - 1 - k) []).length = inc * (k + 1) := by
  obtain ⟨hwf, hinc, _⟩ := wf_of_reach hincM hr
  obtain ⟨hnn, hn, hcaps, _, _, _, _, _⟩ := hwf
  refine ⟨hnn, hinc, ?_⟩
  rw [hinc] at hn hcaps
  have hj := capsFrom_getD s.head s.n hcaps (s.head.length - 1 - k) (by omega)
  rw [hj, hn]
  have h1 : s.head.length = (s.head.length - 1 - k) + (k + 1) := by omega
  have h2 : inc * s.head.length = inc * (s.head.length - 1 - k) + inc * (k + 1) := by
    conv_lhs => rw [h1]
    rw [Nat.mul_add]
  rw [mul_comm (s.head.length - 1 - k) inc]
  omega

theorem c5_segment_capacities_witness :
    (⟨[[some 10]], 1, 1, 4, 1⟩ : Stack Nat).head ≠ [] ∧
    (⟨[[some 10]], 1, 1, 4, 1⟩ : Stack Nat).initialSize = 1 ∧
    ((⟨[[some 10]], 1, 1, 4, 1⟩ : Stack Nat).head.getD
      ((⟨[[some 10]], 1, 1, 4, 1⟩ : Stack Nat).head.length - 1 - 0) []).length = 1 * (0 + 1) :=
  c5_segment_capacities 1 4 (⟨[[some 10]], 1, 1, 4, 1⟩ : Stack Nat) 0
    (by norm_num [M32]) (Reach.next_push (x := 10) Reach.init rfl) (by decide)

/-- C6: `isStackEmpty` is true exactly when `i = 0` and the chain has a
single table and, on every reachable stack, exactly when no stored element
remains (freshly created, or every push matched by a pop). -/
theorem c6_isStackEmpty_characterization {α : Type} (inc isz : Nat) (s : Stack α)
    (hincM : inc < M32) (hr : Reach inc isz s) :
    (isStackEmpty s = true ↔ s.i = 0 ∧ s.head.length = 1) ∧
    (isStackEmpty s = true ↔ elems s = []) := by
  obtain ⟨hwf, _, _⟩ := wf_of_reach hincM hr
  refine ⟨by simp [isStackEmpty], ?_⟩
  rw [isStackEmpty_iff_contents hwf, elems_nil_iff hwf]

theorem c6_isStackEmpty_characterization_witness :
    (isStackEmpty (initStack 2 4 : Stack Nat) = true ↔
      (initStack 2 4 : Stack Nat).i = 0 ∧ (initStack 2 4 : Stack Nat).head.length = 1) ∧
    (isStackEmpty (initStack 2 4 : Stack Nat) = true ↔ elems (initStack 2 4 : Stack Nat) = []) :=
  c6_isStackEmpty_characterization 2 4 (initStack 2 4 : Stack Nat)
    (by norm_num [M32]) Reach.init

/-- C8: `pop` on an empty stack is fatal (no mutation is performed: no
result state exists), and on a well-formed non-empty stack `pop` never
takes the fatal branch. -/
theorem c8_pop_precondition {α : Type} (s : Stack α) (hwf : WF s) :
    (isStackEmpty s = true → pop s = none) ∧
    (isStackEmpty s = false → pop s ≠ none) := by
  refine ⟨fun h => pop_eq_empty h, fun h => ?_⟩
  obtain ⟨v, s', hp⟩ := pop_some_of_wf hwf h
  simp [hp]

theorem c8_pop_precondition_witness :
    pop (initStack 2 4 : Stack Nat) = none ∧
    pop (⟨[[some 5, none]], 1, 2, 4, 2⟩ : Stack Nat) ≠ none :=
  ⟨(c8_pop_precondition (initStack 2 4 : Stack Nat) (by decide)).1 rfl,
   (c8_pop_precondition (⟨[[some 5, none]], 1, 2, 4, 2⟩ : Stack Nat) (by decide)).2 rfl⟩

/-- C9: `itemExists` is read-only: the state-passing translation returns
the stack unchanged in every field (chain, indices, sizes, stored bytes),
for every stack, probe item, depth and predicate. -/
theorem c9_itemExists_pure {α : Type} (s : Stack α) (item : α) (max_depth : Int)
    (equal : α → α → Bool) :
    itemExistsSt s item max_depth equal = (itemExists s item max_depth equal, s) ∧
    (itemExistsSt s item max_depth equal).2.head = s.head ∧
    (itemExistsSt s item max_depth equal).2.i = s.i ∧
    (itemExistsSt s item max_depth equal).2.n = s.n ∧
    (itemExistsSt s item max_depth equal).2.itemSize = s.itemSize ∧
    (itemExistsSt s item max_depth equal).2.initialSize = s.initialSize :=
  ⟨rfl, rfl, rfl, rfl, rfl, rfl⟩

/-- C10: a stack created with initial capacity 0 is returned (empty, with
growth increment 0), but every push onto it dies on the overflow guard:
`i == n == 0` and `0 + 0` does not exceed `0`. -/
theorem c10_zero_capacity {α : Type} (isz : Nat) (x : α) :
    isStackEmpty (initStack (α := α) 0 isz) = true ∧
    (initStack (α := α) 0 isz).initialSize = 0 ∧
    contents (initStack (α := α) 0 isz) = [] ∧
    push (initStack (α := α) 0 isz) x = none := by
  refine ⟨rfl, rfl, by simp [contents, initStack], ?_⟩
  simp [push, initStack]

/-- C2: a `pop` that finds the head table drained (`i = 0`) frees exactly
that table (the chain becomes its tail), makes the next-older table the
head with `n` shrunk by one increment, leaves `i = n - 1` (the full
capacity of the new head, minus the element just popped) and reads the new
head's top slot; a `pop` with `i > 0` frees nothing; in all cases at most
one table is freed. -/
theorem c2_pop_segment_release {α : Type} (s s' : Stack α) (v : Option α)
    (hwf : WF s) (hp : pop s = some (v, s')) :
    (s.head.length - 1 ≤ s'.head.length ∧ s'.head.length ≤ s.head.length) ∧
    (s.i = 0 → s'.head = s.head.tail ∧ s'.n = s.n - s.initialSize ∧
      s'.i = s'.n - 1 ∧ v = (s.head.getD 1 []).getD (s.n - s.initialSize - 1) none) ∧
    (0 < s.i → s'.head = s.head ∧ s'.n = s.n ∧ s'.i = s.i - 1) := by
  obtain ⟨hnn, hn, hcaps, hi, hfill, hfull, hlt, hgrow⟩ := hwf
  obtain ⟨b, rest, hb⟩ := List.exists_cons_of_ne_nil hnn
  have hne : isStackEmpty s = false := by
    cases hE : isStackEmpty s
    · rfl
    · rw [pop_eq_empty hE] at hp
      exact absurd hp (by simp)
  by_cases hi0 : s.i = 0
  · have hrest : rest ≠ [] := by
      intro hr
      rw [isStackEmpty, hb, hr] at hne
      simp [hi0] at hne
    obtain ⟨b2, rest2, hr2⟩ := List.exists_cons_of_ne_nil hrest
    rw [hr2] at hb
    have hginc : 1 ≤ s.initialSize := by
      apply hgrow
      rw [hb]
      simp
    have hL : s.n = s.initialSize * (rest2.length + 2) := by
      rw [hn, hb]
      simp
    have h2inc : s.initialSize * 2 ≤ s.n := by
      rw [hL]
      exact Nat.mul_le_mul_left _ (by omega)
    have hu1 : usub s.n s.initialSize = s.n - s.initialSize := usub_eq (by omega) hlt
    have hu2 : usub (s.n - s.initialSize) 1 = s.n - s.initialSize - 1 :=
      usub_eq (by omega) (by omega)
    rw [pop_eq_drain hne hi0 hb, hu1, hu2] at hp
    simp only [Option.some.injEq, Prod.mk.injEq] at hp
    obtain ⟨hv, hs⟩ := hp
    subst hv
    subst hs
    refine ⟨⟨?_, ?_⟩, fun _ => ⟨by rw [hb]; rfl, rfl, rfl, ?_⟩,
      fun hipos => absurd hi0 (by omega)⟩
    · rw [hb]
      simp
    · rw [hb]
      simp
    · rw [hb]
      simp
  · rw [pop_eq_quick hne hi0 hb] at hp
    simp only [Option.some.injEq, Prod.mk.injEq] at hp
    obtain ⟨hv, hs⟩ := hp
    subst hv
    subst hs
    refine ⟨⟨?_, ?_⟩, fun h0 => absurd h0 hi0, fun _ => ⟨by rw [hb], rfl, rfl⟩⟩
    · rw [hb]
      simp
    · rw [hb]

theorem c2_pop_segment_release_witness :
    (((2 : Nat) - 1 ≤ 1 ∧ (1 : Nat) ≤ 2) ∧
      ((0 : Nat) = 0 → ([[some 5]] : List (Buf Nat)) = [[some 5]] ∧ (1 : Nat) = 1 ∧
        (0 : Nat) = 0 ∧ (some 5 : Option Nat) = some 5) ∧
      ((0 : Nat) < 0 → ([[some 5]] : List (Buf Nat)) = [[none, none], [some 5]] ∧
        (1 : Nat) = 2 ∧ (0 : Nat) = 0)) :=
  c2_pop_segment_release (⟨[[none, none], [some 5]], 0, 2, 4, 1⟩ : Stack Nat)
    (⟨[[some 5]], 0, 1, 4, 1⟩ : Stack Nat) (some 5) (by decide) rfl

/-- C3: a successful `push` on a full head (`i = n`) adds exactly one new
table of capacity `n + initialSize` in front of the old chain and stores
the item at slot 0 with `i = 1` (reset to 0, write, increment); on a
non-full head it allocates nothing and stores the item at slot `i`
(byte offset `i * itemSize`), then increments `i`. -/
theorem c3_push_structure {α : Type} (s s' : Stack α) (x : α) (hwf : WF s)
    (hp : push s x = some s') :
    (s.i = s.n → s'.head.length = s.head.length + 1 ∧ s'.head.tail = s.head ∧
      (s'.head.headD []).length = s.n + s.initialSize ∧ s'.n = s.n + s.initialSize ∧
      s'.i = 1 ∧ (s'.head.headD []).getD 0 none = some x) ∧
    (s.i ≠ s.n → s'.head.length = s.head.length ∧ s'.head.tail = s.head.tail ∧
      s'.n = s.n ∧ s'.i = s.i + 1 ∧ (s'.head.headD []).getD s.i none = some x) := by
  obtain ⟨hnn, hn, hcaps, hi, hfill, hfull, hlt, hgrow⟩ := hwf
  obtain ⟨b, rest, hb⟩ := List.exists_cons_of_ne_nil hnn
  have hblen : b.length = s.n := by rw [hb] at hcaps; exact hcaps.1
  by_cases hin : s.i = s.n
  · by_cases hov : s.i < (s.n + s.initialSize) % M32
    · have hinc : s.initialSize ≤ s.n := by
        rw [hn]
        exact Nat.le_mul_of_pos_right _ (List.length_pos.mpr hnn)
      have hexact : (s.n + s.initialSize) % M32 = s.n + s.initialSize := by
        rw [M32_eq] at *
        omega
      have hpos : 1 ≤ s.n + s.initialSize := by omega
      rw [push_eq_grow x hin hov, hexact] at hp
      obtain rfl : _ = s' := Option.some.inj hp
      refine ⟨fun _ => ⟨by simp, rfl, by simp, rfl, rfl, ?_⟩, fun hne => absurd hin hne⟩
      simp only [List.headD_cons]
      rw [replicate_set_zero _ _ _ hpos]
      simp
    · rw [push_eq_wrap x hin (Nat.le_of_not_lt hov)] at hp
      exact absurd hp (by simp)
  · rw [push_eq_quick x hin hb] at hp
    obtain rfl : _ = s' := Option.some.inj hp
    have hib : s.i < b.length := by omega
    refine ⟨fun h0 => absurd h0 hin, fun _ => ⟨by rw [hb]; simp, by rw [hb]; rfl, rfl, rfl, ?_⟩⟩
    simp only [List.headD_cons]
    rw [List.getD_eq_getElem _ _ (by simpa using hib)]
    exact List.getElem_set_self ..

theorem c3_push_structure_witness :
    (((1 : Nat) = 1 → (2 : Nat) = 2 ∧ ([[some 7]] : List (Buf Nat)) = [[some 7]] ∧
      (2 : Nat) = 2 ∧ (2 : Nat) = 2 ∧ (1 : Nat) = 1 ∧ (some 9 : Option Nat) = some 9) ∧
    ((1 : Nat) ≠ 1 → (2 : Nat) = 1 ∧ ([[some 7]] : List (Buf Nat)) = [] ∧
      (2 : Nat) = 1 ∧ (1 : Nat) = 2 ∧ (none : Option Nat) = some 9)) :=
  c3_push_structure (⟨[[some 7]], 1, 1, 4, 1⟩ : Stack Nat)
    (⟨[[some 9, none], [some 7]], 1, 2, 4, 1⟩ : Stack Nat) 9 (by decide) rfl

/-- C7: on a full head, `push` is fatal exactly when the wrapping-computed
new capacity fails to exceed the old one; when the guard passes, the new
capacity equals the exact (non-wrapped) arithmetic value `n + initialSize`,
so no reachable capacity is ever a wrapped value. -/
theorem c7_overflow_guard {α : Type} (s : Stack α) (x : α) (hwf : WF s)
    (hhead : s.i = s.n) :
    (push s x = none ↔ (s.n + s.initialSize) % M32 ≤ s.n) ∧
    ((s.n + s.initialSize) % M32 > s.n →
      (s.n + s.initialSize) % M32 = s.n + s.initialSize ∧
      push s x = some ⟨(List.replicate (s.n + s.initialSize) none).set 0 (some x) :: s.head,
        1, s.n + s.initialSize, s.itemSize, s.initialSize⟩) := by
  obtain ⟨hnn, hn, hcaps, hi, hfill, hfull, hlt, hgrow⟩ := hwf
  have hinc : s.initialSize ≤ s.n := by
    rw [hn]
    exact Nat.le_mul_of_pos_right _ (List.length_pos.mpr hnn)
  constructor
  · constructor
    · intro hnone
      by_contra hgt
      rw [push_eq_grow x hhead (by omega)] at hnone
      exact absurd hnone (by simp)
    · intro hle
      exact push_eq_wrap x hhead (by omega)
  · intro hgt
    have hexact : (s.n + s.initialSize) % M32 = s.n + s.initialSize := by
      rw [M32_eq] at *
      omega
    refine ⟨hexact, ?_⟩
    rw [push_eq_grow x hhead (by omega), hexact]

theorem c7_overflow_guard_witness :
    (push (⟨[[some 7]], 1, 1, 4, 1⟩ : Stack Nat) 9 = none ↔ (2 : Nat) ≤ 1) ∧
    ((2 : Nat) > 1 → (2 : Nat) = 2 ∧
      push (⟨[[some 7]], 1, 1, 4, 1⟩ : Stack Nat) 9 =
        some (⟨[[some 9, none], [some 7]], 1, 2, 4, 1⟩ : Stack Nat)) :=
  c7_overflow_guard (⟨[[some 7]], 1, 1, 4, 1⟩ : Stack Nat) 9 (by decide) rfl

/-! ### Semantics of the search -/

theorem scanList_append {α : Type} (equal : α → α → Bool) (item : α) :
    ∀ (l1 l2 : List α) (md : Int),
      scanList equal item (l1 ++ l2) md =
        (match scanList equal item l1 md with
         | Sum.inl b => Sum.inl b
         | Sum.inr md2 => scanList equal item l2 md2) := by
  intro l1
  induction l1 with
  | nil => intro l2 md; simp [scanList]
  | cons y ys ih =>
    intro l2 md
    by_cases hmd : md = 0
    · simp [scanList, hmd]
    · by_cases hy : equal item y
      · simp [scanList, hmd, hy]
      · simp only [List.cons_append, scanList, if_neg hmd, hy, Bool.false_eq_true,
          if_false]
        exact ih l2 _

theorem scanTable_eq_scanList {α : Type} (equal : α → α → Bool) (item : α)
    (buf : Buf α) :
    ∀ (i : Nat) (md : Int), i ≤ buf.length →
      (∀ o ∈ buf.take i, o.isSome = true) →
      scanTable equal item buf ((i : Int) - 1) md =
        scanList equal item ((buf.take i).reverse.reduceOption) md := by
  intro i
  induction i with
  | zero =>
    intro md _ _
    simp [scanTable, scanList, scanTableN]
  | succ i ih =>
    intro md hle hsome
    have hilt : i < buf.length := by omega
    have hmem : buf.getD i none ∈ buf.take (i + 1) := by
      rw [take_succ_getD (none : Option α) hilt]
      exact List.mem_append_right _ (by simp)
    obtain ⟨y, hy⟩ := Option.isSome_iff_exists.mp (hsome _ hmem)
    have hT1 : scanTable equal item buf (((i : Nat) + 1 : Int) - 1) md =
        scanTableN equal item buf (i + 1) md := by
      unfold scanTable
      congr 1
      omega
    have hT2 : ∀ md2 : Int, scanTableN equal item buf i md2 =
        scanList equal item ((buf.take i).reverse.reduceOption) md2 := by
      intro md2
      have h := ih md2 (by omega) (fun o ho => hsome o (mem_take_mono (by omega) ho))
      rw [← h]
      unfold scanTable
      congr 1
      omega
    have hlist : (buf.take (i + 1)).reverse.reduceOption =
        y :: (buf.take i).reverse.reduceOption := by
      rw [take_succ_getD (none : Option α) hilt, hy]
      simp [List.reduceOption_append]
    have hcast : ((i + 1 : Nat) : Int) - 1 = ((i : Nat) + 1 : Int) - 1 := by push_cast; ring
    rw [hcast, hT1, hlist]
    have hunfoldT : scanTableN equal item buf (i + 1) md =
        (if md = 0 then Sum.inl false
         else if equal item y then Sum.inl true
         else scanTableN equal item buf i (if 0 < md then md - 1 else md)) := by
      conv_lhs => rw [scanTableN]
      rw [hy]
    have hunfoldL : scanList equal item (y :: (buf.take i).reverse.reduceOption) md =
        (if md = 0 then Sum.inl false
         else if equal item y then Sum.inl true
         else scanList equal item ((buf.take i).reverse.reduceOption)
           (if 0 < md then md - 1 else md)) := by
      conv_lhs => rw [scanList]
    rw [hunfoldT, hunfoldL, hT2]

theorem scanChain_eq_scanListB {α : Type} (equal : α → α → Bool) (item : α) (inc : Nat) :
    ∀ (cs : List (Buf α)) (i0 : Nat) (md : Int),
      capsFrom inc cs (inc * cs.length) →
      i0 ≤ (cs.headD []).length →
      (∀ o ∈ (cs.headD []).take i0, o.isSome = true) →
      (∀ t ∈ cs.tail, ∀ o ∈ t, o.isSome = true) →
      scanChain equal item inc cs ((inc * cs.length : Nat) : Int) ((i0 : Int) - 1) md =
        scanListB equal item
          (((cs.headD []).take i0).reverse ++
            (cs.tail.map List.reverse).flatten).reduceOption md := by
  intro cs
  induction cs with
  | nil =>
    intro i0 md _ _ _ _
    simp [scanChain, scanListB, scanList]
  | cons b rest ih =>
    intro i0 md hcaps hle hsome hfull
    simp only [scanChain]
    rw [scanTable_eq_scanList equal item b i0 md (by simpa using hle) (by simpa using hsome)]
    simp only [List.headD_cons, List.tail_cons] at *
    rw [List.reduceOption_append, scanListB, scanList_append]
    cases hscan : scanList equal item ((b.take i0).reverse.reduceOption) md with
    | inl bb => simp
    | inr md2 =>
      simp only []
      have harith : ((inc * (b :: rest).length : Nat) : Int) - (inc : Int) =
          ((inc * rest.length : Nat) : Int) := by
        simp only [List.length_cons]
        push_cast
        ring
      rw [harith]
      cases rest with
      | nil => simp [scanChain, scanListB, scanList]
      | cons b2 rest2 =>
        have harith2 : inc * (b :: b2 :: rest2).length - inc =
            inc * (b2 :: rest2).length := by
          simp only [List.length_cons]
          have : inc * (rest2.length + 1 + 1) = inc * (rest2.length + 1) + inc := by ring
          omega
        have hcaps2 : capsFrom inc (b2 :: rest2) (inc * (b2 :: rest2).length) := by
          have h2 := hcaps.2
          rwa [harith2] at h2
        have hblen2 : b2.length = inc * (b2 :: rest2).length := hcaps2.1
        have hfull2 : ∀ o ∈ b2, o.isSome = true := hfull b2 (by simp)
        have ihh := ih (inc * (b2 :: rest2).length) md2 hcaps2
          (by simp only [List.headD_cons]; omega)
          (by
            simp only [List.headD_cons]
            intro o ho
            exact hfull2 o (List.take_subset _ _ ho))
          (by
            simp only [List.tail_cons]
            intro t ht o ho
            exact hfull t (List.mem_cons_of_mem _ ht) o ho)
        simp only [List.headD_cons, List.tail_cons] at ihh
        rw [ihh, ← hblen2, List.take_length]
        simp [scanListB, List.reduceOption_append]

/-- On a well-formed stack, `itemExists` computes the reference scan of
the flat list of stored elements, top first. -/
theorem itemExists_eq_scanListB {α : Type} {s : Stack α} (item : α) (md : Int)
    (equal : α → α → Bool) (hwf : WF s) :
    itemExists s item md equal = scanListB equal item (elems s) md := by
  obtain ⟨hnn, hn, hcaps, hi, hfill, hfull, hlt, hgrow⟩ := hwf
  obtain ⟨b, rest, hb⟩ := List.exists_cons_of_ne_nil hnn
  have hblen : b.length = s.n := by rw [hb] at hcaps; exact hcaps.1
  unfold itemExists
  have hncast : (s.n : Int) = ((s.initialSize * s.head.length : Nat) : Int) := by
    rw [← hn]
  rw [hncast, scanChain_eq_scanListB equal item s.initialSize s.head s.i md
    (by rw [← hn]; exact hcaps)
    (by rw [hb]; simp only [List.headD_cons]; omega)
    hfill hfull]
  rfl

theorem scanListB_eq_any {α : Type} (equal : α → α → Bool) (item : α) :
    ∀ (l : List α) (md : Int),
      scanListB equal item l md =
        if md < 0 then l.any (fun y => equal item y)
        else (l.take md.toNat).any (fun y => equal item y) := by
  intro l
  induction l with
  | nil => intro md; simp [scanListB, scanList]
  | cons y ys ih =>
    intro md
    by_cases hmd : md = 0
    · subst hmd
      simp [scanListB, scanList]
    · by_cases hy : equal item y
      · have hL : scanListB equal item (y :: ys) md = true := by
          simp [scanListB, scanList, hmd, hy]
        rw [hL]
        by_cases hneg : md < 0
        · simp [hneg, hy]
        · have h1 : md.toNat = (md.toNat - 1) + 1 := by omega
          rw [if_neg hneg, h1]
          simp [hy]
      · have hstep : scanListB equal item (y :: ys) md =
            scanListB equal item ys (if 0 < md then md - 1 else md) := by
          simp [scanListB, scanList, hmd, hy]
        rw [hstep, ih]
        by_cases hneg : md < 0
        · have hnp : ¬ (0 < md) := by omega
          simp [hnp, hneg, hy]
        · have hpos : 0 < md := by omega
          have h2 : ¬ (md - 1 < 0) := by omega
          simp only [if_pos hpos, if_neg hneg, if_neg h2]
          have h4 : (md - 1).toNat = md.toNat - 1 := by omega
          rw [h4]
          have h3 : md.toNat = (md.toNat - 1) + 1 := by omega
          conv_rhs => rw [h3]
          simp [hy]

/-- C4: on every well-formed stack, `itemExists` searches the stored
elements from most recent to oldest across table boundaries: with a
negative `max_depth` it reports whether any stored element matches, with
`max_depth = k ≥ 0` it reports whether one of the `k` most recent elements
matches (never an element deeper than `k`); on an empty stack it is always
false. -/
theorem c4_itemExists_search {α : Type} (s : Stack α) (item : α) (max_depth : Int)
    (equal : α → α → Bool) (hwf : WF s) :
    (itemExists s item max_depth equal =
      (if max_depth < 0 then (elems s).any (fun y => equal item y)
       else ((elems s).take max_depth.toNat).any (fun y => equal item y))) ∧
    (isStackEmpty s = true → itemExists s item max_depth equal = false) := by
  have h1 := itemExists_eq_scanListB item max_depth equal hwf
  have h2 := scanListB_eq_any equal item (elems s) max_depth
  refine ⟨by rw [h1, h2], ?_⟩
  intro hE
  have hc : contents s = [] := (isStackEmpty_iff_contents hwf).mp hE
  have he : elems s = [] := by rw [elems, hc]; rfl
  rw [h1, h2, he]
  simp

theorem c4_itemExists_search_witness :
    (itemExists (⟨[[some 20, some 30], [some 10]], 2, 2, 4, 1⟩ : Stack Nat) 10 2
        (fun a b => a == b) =
      (if (2 : Int) < 0 then
        (elems (⟨[[some 20, some 30], [some 10]], 2, 2, 4, 1⟩ : Stack Nat)).any
          (fun y => 10 == y)
       else
        ((elems (⟨[[some 20, some 30], [some 10]], 2, 2, 4, 1⟩ : Stack Nat)).take
          (2 : Int).toNat).any (fun y => 10 == y))) ∧
    (isStackEmpty (⟨[[some 20, some 30], [some 10]], 2, 2, 4, 1⟩ : Stack Nat) = true →
      itemExists (⟨[[some 20, some 30], [some 10]], 2, 2, 4, 1⟩ : Stack Nat) 10 2
        (fun a b => a == b) = false) :=
  c4_itemExists_search (⟨[[some 20, some 30], [some 10]], 2, 2, 4, 1⟩ : Stack Nat) 10 2
    (fun a b => a == b) (by decide)

end GeneralStack
